import Mathlib

/-!
Shallow embedding of the `getopt` module of `rust-v7-lib`
(`src/getopt.rs`): a command-line parser similar to getopt(3).

Rust `String` tokens are Lean `String`s; the argument iterator is a
`List String` consumed from the front; `Vec<char>` is `List Char`;
the `panic!` in `parse_optstring` is modelled by returning `none`.
-/

namespace GetoptLib

/-- A command line argument (`enum Arg` in the source). -/
inductive Arg where
  /-- A command line option without an argument. -/
  | Opt : Char → Arg
  /-- A command line option with an argument. -/
  | OptWithArg : Char → String → Arg
  /-- A command line argument. -/
  | Arg : String → Arg
deriving DecidableEq, Repr

/-- The error type for the getopt module (`enum GetOptErr`). -/
inductive GetOptErr where
  /-- No argument found for a command line option that expects one. -/
  | MissingArg : Char → GetOptErr
  /-- No option letter found after hyphen. -/
  | MissingOpt : GetOptErr
  /-- An unrecognised command line option. -/
  | UnknownOpt : Char → GetOptErr
deriving DecidableEq, Repr

/-- A command line option specification (`struct OptSpec`). -/
structure OptSpec where
  /-- The option character. -/
  opt : Char
  /-- Indicates whether the option expects an argument. -/
  has_arg : Bool
deriving DecidableEq, Repr

/-- The loop of `parse_optstring`, with the running `last` letter and the
accumulated descriptor vector made explicit.  A `panic!` is `none`. -/
def parse_optstring_go : List Char → Option Char → List OptSpec → Option (List OptSpec)
  | [], last, acc =>
    match last with
    | some c => some (acc ++ [OptSpec.mk c false])
    | none => some acc
  | ch :: rest, last, acc =>
    if ch = ':' then
      match last with
      | some c => parse_optstring_go rest last (acc ++ [OptSpec.mk c true])
      | none => none
    else if ch.isAlphanum then
      match last with
      | some c => parse_optstring_go rest (some ch) (acc ++ [OptSpec.mk c false])
      | none => parse_optstring_go rest (some ch) acc
    else
      none

/-- Converts a getopt optstring to a vector of `OptSpec`s
(`fn parse_optstring`); `none` models the `panic!` on a malformed
specification.  `Char.isAlphanum` coincides with Rust's
`char::is_ascii_alphanumeric`. -/
def parse_optstring (optstring : String) : Option (List OptSpec) :=
  parse_optstring_go optstring.data none []

/-- The state of the parser (`struct GetOpt`), with the argument iterator
as the list of tokens not yet pulled. -/
structure GetOptState where
  /-- Indicates whether all options have been parsed. -/
  opts_done : Bool
  /-- The option specifications. -/
  opt_specs : List OptSpec
  /-- The remaining command line arguments. -/
  args : List String
  /-- The letters of the current option argument (with the leading '-'). -/
  chars : List Char
  /-- The index of the current option in `chars`. -/
  idx : Nat
deriving DecidableEq, Repr

/-- `GetOpt::find_opt_spec`: linear scan returning the first descriptor
whose letter matches. -/
def find_opt_spec (specs : List OptSpec) (opt : Char) : Option OptSpec :=
  match specs with
  | [] => none
  | s :: rest => if s.opt = opt then some s else find_opt_spec rest opt

/-- `GetOpt::handle_option`.  The source indexes `self.chars[self.idx]`,
which panics when out of range; every call site guarantees
`idx < chars.length`, so `getD` with an arbitrary default is faithful. -/
def handle_option (st : GetOptState) : Except GetOptErr Arg × GetOptState :=
  match find_opt_spec st.opt_specs (st.chars.getD st.idx ' ') with
  | some spec =>
    if spec.has_arg then
      match st.args with
      | a :: rest =>
        (.ok (.OptWithArg (st.chars.getD st.idx ' ') a),
          { st with idx := st.idx + 1, args := rest })
      | [] =>
        (.error (.MissingArg (st.chars.getD st.idx ' ')),
          { st with idx := st.idx + 1 })
    else
      (.ok (.Opt (st.chars.getD st.idx ' ')), { st with idx := st.idx + 1 })
  | none =>
    (.error (.UnknownOpt (st.chars.getD st.idx ' ')), { st with idx := st.idx + 1 })

/-- `GetOpt::handle_arg`.  `arg.starts_with('-')` is `data.head? = some '-'`;
`arg.chars().collect()` is `arg.data`.  On `"--"` the source pulls the next
token and recurses (with `opts_done` already set to `true`). -/
def handle_arg (st : GetOptState) (arg : String) :
    Option (Except GetOptErr Arg) × GetOptState :=
  if st.opts_done then
    (some (.ok (.Arg arg)), st)
  else if arg.data.head? = some '-' then
    if arg.data.length > 1 then
      if arg.data.length = 2 ∧ arg.data.getD 1 ' ' = '-' then
        match h2 : st.args with
        | a :: rest =>
          handle_arg
            { st with opts_done := true, chars := arg.data, idx := 0, args := rest } a
        | [] => (none, { st with opts_done := true, chars := arg.data, idx := 0 })
      else
        match handle_option { st with chars := arg.data, idx := 1 } with
        | (r, st') => (some r, st')
    else
      (some (.error .MissingOpt), { st with chars := arg.data, idx := 1 })
  else
    (some (.ok (.Arg arg)), { st with opts_done := true })
termination_by st.args.length
decreasing_by
  simp_all

/-- `<GetOpt as Iterator>::next`: resume the cluster when `chars` is
non-empty and `0 < idx < chars.length`, otherwise pull the next token. -/
def nextGetOpt (st : GetOptState) : Option (Except GetOptErr Arg) × GetOptState :=
  if ¬ st.chars.isEmpty ∧ st.idx > 0 ∧ st.idx < st.chars.length then
    (some (handle_option st).1, (handle_option st).2)
  else
    match st.args with
    | a :: rest => handle_arg { st with args := rest } a
    | [] => (none, st)

/-- Drive the iterator for at most `fuel` pulls, collecting the yielded
items and the final state.  A `none` from `nextGetOpt` is the end
sentinel and stops the run. -/
def stepsFuel : Nat → GetOptState → List (Except GetOptErr Arg) × GetOptState
  | 0, st => ([], st)
  | fuel + 1, st =>
    match nextGetOpt st with
    | (none, st') => ([], st')
    | (some it, st') =>
      (it :: (stepsFuel fuel st').1, (stepsFuel fuel st').2)

/-- A fuel bound on the number of items the parser can still yield:
each pull either consumes a token or advances the cluster index. -/
def totalSize (st : GetOptState) : Nat :=
  st.args.length + (st.args.map String.length).sum + (st.chars.length - st.idx)

/-- `GetOpt::new`: compile the optstring and build the initial state;
`none` models the construction-time panic. -/
def mkGetOpt (optstring : String) (args : List String) : Option GetOptState :=
  (parse_optstring optstring).map fun specs =>
    { opts_done := false, opt_specs := specs, args := args, chars := [], idx := 0 }

/-- The whole item sequence yielded by a parser built from `optstring`
over `args` (empty when construction panics). -/
def runGetOpt (optstring : String) (args : List String) :
    List (Except GetOptErr Arg) :=
  match mkGetOpt optstring args with
  | none => []
  | some st => (stepsFuel (totalSize st) st).1

/-- The cluster-resumption condition of `next` as a predicate on states:
a token is mid-decomposition. -/
def clusterActive (st : GetOptState) : Prop :=
  ¬ st.chars.isEmpty ∧ st.idx > 0 ∧ st.idx < st.chars.length

instance (st : GetOptState) : Decidable (clusterActive st) := by
  unfold clusterActive
  infer_instance

/-! Basic facts about the individual transition functions. -/

/-- With `opts_done` set, `handle_arg` immediately wraps the token as an
argument and leaves the state unchanged. -/
theorem handle_arg_done (st : GetOptState) (a : String) (h : st.opts_done = true) :
    handle_arg st a = (some (.ok (.Arg a)), st) := by
  unfold handle_arg
  simp [h]

/-- `handle_option` never yields a plain argument. -/
theorem handle_option_ne_arg (st : GetOptState) (v : String) :
    (handle_option st).1 ≠ .ok (.Arg v) := by
  unfold handle_option
  cases hf : find_opt_spec st.opt_specs (st.chars.getD st.idx ' ') with
  | none => simp [hf]
  | some spec =>
    by_cases ha : spec.has_arg <;>
      cases hargs : st.args <;>
      simp [hf, ha, hargs]

/-- `handle_option` leaves `opts_done`, `chars` untouched and bumps `idx`. -/
theorem handle_option_state (st : GetOptState) :
    (handle_option st).2.opts_done = st.opts_done ∧
    (handle_option st).2.chars = st.chars ∧
    (handle_option st).2.idx = st.idx + 1 ∧
    ((handle_option st).2.args = st.args ∨
      ∃ a, st.args = a :: (handle_option st).2.args) := by
  unfold handle_option
  cases hf : find_opt_spec st.opt_specs (st.chars.getD st.idx ' ') with
  | none => simp [hf]
  | some spec =>
    by_cases ha : spec.has_arg <;>
      cases hargs : st.args <;>
      simp [hf, ha, hargs]

/-- `handle_option` consumes at most one extra token and leaves at most
`chars.length - (idx + 1)` cluster characters, so its result state is
bounded in size. -/
theorem handle_option_size (st : GetOptState) :
    totalSize (handle_option st).2 ≤
      st.args.length + (st.args.map String.length).sum +
        (st.chars.length - (st.idx + 1)) := by
  unfold handle_option
  cases hf : find_opt_spec st.opt_specs (st.chars.getD st.idx ' ') with
  | none => simp [totalSize]
  | some spec =>
    by_cases ha : spec.has_arg
    · cases hargs : st.args with
      | nil => simp [ha, hargs, totalSize]
      | cons b rest =>
        simp [ha, hargs, totalSize]
        omega
    · simp [ha, totalSize]

/-- `handle_arg` only ever consumes tokens: its result state is bounded
by the tokens still unread plus the handled token itself. -/
theorem handle_arg_size (st : GetOptState) (a : String) :
    totalSize (handle_arg st a).2 ≤
      st.args.length + (st.args.map String.length).sum + a.length +
        (st.chars.length - st.idx) := by
  unfold handle_arg
  by_cases h1 : st.opts_done
  · simp [h1, totalSize]
  · by_cases h2 : a.data.head? = some '-'
    · by_cases h3 : a.data.length > 1
      · by_cases h4 : a.data.length = 2 ∧ a.data.getD 1 ' ' = '-'
        · cases hargs : st.args with
          | nil =>
            rw [if_neg (by simp [h1]), if_pos h2, if_pos h3, if_pos h4]
            dsimp only
            simp [totalSize, hargs]
          | cons b rest =>
            rw [if_neg (by simp [h1]), if_pos h2, if_pos h3, if_pos h4]
            dsimp only
            rw [handle_arg_done _ _ rfl]
            simp [totalSize, hargs]
            omega
        · rw [if_neg (by simp [h1]), if_pos h2, if_pos h3, if_neg h4]
          cases hopt : handle_option { st with chars := a.data, idx := 1 } with
          | mk r st1 =>
            have hsz := handle_option_size { st with chars := a.data, idx := 1 }
            rw [hopt] at hsz
            dsimp only
            simp [totalSize] at hsz ⊢
            omega
      · rw [if_neg (by simp [h1]), if_pos h2, if_neg h3]
        simp [totalSize]
        omega
    · rw [if_neg (by simp [h1]), if_neg h2]
      simp [totalSize]

/-- Every pull that yields an item strictly shrinks `totalSize`. -/
theorem nextGetOpt_size {st : GetOptState} {it : Except GetOptErr Arg}
    {st' : GetOptState} (h : nextGetOpt st = (some it, st')) :
    totalSize st' < totalSize st := by
  unfold nextGetOpt at h
  by_cases hc : ¬ st.chars.isEmpty ∧ st.idx > 0 ∧ st.idx < st.chars.length
  · rw [if_pos hc] at h
    have hopt := handle_option_size st
    have hst' : (handle_option st).2 = st' := congrArg Prod.snd h
    rw [hst'] at hopt
    unfold totalSize at hopt ⊢
    omega
  · rw [if_neg hc] at h
    cases hargs : st.args with
    | nil =>
      rw [hargs] at h
      exact absurd h (by simp)
    | cons b rest =>
      rw [hargs] at h
      have hb := handle_arg_size { st with args := rest } b
      have hst' : (handle_arg { st with args := rest } b).2 = st' := congrArg Prod.snd h
      rw [hst'] at hb
      unfold totalSize at hb ⊢
      simp [hargs] at hb ⊢
      omega

/-- `handle_arg` returns the end sentinel only from the `--` branch with
the source exhausted; the state it leaves has no tokens and a reset
cluster index. -/
theorem handle_arg_none {st : GetOptState} {a : String} {st' : GetOptState}
    (h : handle_arg st a = (none, st')) :
    st'.args = [] ∧ st'.idx = 0 ∧ st'.opts_done = true := by
  unfold handle_arg at h
  by_cases h1 : st.opts_done
  · simp [h1] at h
  · by_cases h2 : a.data.head? = some '-'
    · by_cases h3 : a.data.length > 1
      · by_cases h4 : a.data.length = 2 ∧ a.data.getD 1 ' ' = '-'
        · rw [if_neg (by simp [h1]), if_pos h2, if_pos h3, if_pos h4] at h
          split at h
          · rename_i b rest hargs
            rw [handle_arg_done
              { st with opts_done := true, chars := a.data, idx := 0, args := rest } b rfl] at h
            simp at h
          · rename_i hargs
            have hst' : st' = { st with opts_done := true, chars := a.data, idx := 0 } := by
              have := congrArg Prod.snd h
              simpa using this.symm
            simp [hst', hargs]
        · rw [if_neg (by simp [h1]), if_pos h2, if_pos h3, if_neg h4] at h
          cases hopt : handle_option { st with chars := a.data, idx := 1 } with
          | mk r st1 =>
            rw [hopt] at h
            simp at h
      · rw [if_neg (by simp [h1]), if_pos h2, if_neg h3] at h
        simp at h
    · rw [if_neg (by simp [h1]), if_neg h2] at h
      simp at h

/-- The sentinel is produced only with the source exhausted and no cluster
in progress, and it is then stable. -/
theorem nextGetOpt_none {st st' : GetOptState} (h : nextGetOpt st = (none, st')) :
    st'.args = [] ∧ ¬ clusterActive st' ∧ nextGetOpt st' = (none, st') := by
  unfold nextGetOpt at h
  by_cases hc : ¬ st.chars.isEmpty ∧ st.idx > 0 ∧ st.idx < st.chars.length
  · rw [if_pos hc] at h
    simp at h
  · rw [if_neg hc] at h
    cases hargs : st.args with
    | nil =>
      rw [hargs] at h
      have hst' : st' = st := by
        have := congrArg Prod.snd h
        simpa using this.symm
      subst hst'
      refine ⟨hargs, ?_, ?_⟩
      · unfold clusterActive
        exact hc
      · unfold nextGetOpt
        rw [if_neg hc, hargs]
    | cons b rest =>
      rw [hargs] at h
      obtain ⟨ha, hi, _⟩ := handle_arg_none h
      refine ⟨ha, ?_, ?_⟩
      · unfold clusterActive
        simp [hi]
      · unfold nextGetOpt
        rw [if_neg (by simp [hi]), ha]

/-- With fuel at least `totalSize`, the run reaches the sentinel. -/
theorem stepsFuel_exhausts :
    ∀ (n : Nat) (st : GetOptState), totalSize st ≤ n →
      nextGetOpt (stepsFuel n st).2 = (none, (stepsFuel n st).2) := by
  intro n
  induction n with
  | zero =>
    intro st h
    simp only [stepsFuel]
    have hargs : st.args = [] := by
      unfold totalSize at h
      cases hx : st.args with
      | nil => rfl
      | cons b rest =>
        rw [hx] at h
        simp at h
    have hidx : ¬ st.idx < st.chars.length := by
      unfold totalSize at h
      omega
    unfold nextGetOpt
    rw [if_neg (by tauto), hargs]
  | succ m ih =>
    intro st h
    cases hn : nextGetOpt st with
    | mk o st1 =>
      cases o with
      | none =>
        simp only [stepsFuel, hn]
        exact (nextGetOpt_none hn).2.2
      | some it =>
        simp only [stepsFuel, hn]
        exact ih st1 (by have := nextGetOpt_size hn; omega)

/-- One pull preserves an already-set `opts_done` flag. -/
theorem nextGetOpt_opts_done {st : GetOptState} (h : st.opts_done = true) :
    (nextGetOpt st).2.opts_done = true := by
  unfold nextGetOpt
  by_cases hc : ¬ st.chars.isEmpty ∧ st.idx > 0 ∧ st.idx < st.chars.length
  · rw [if_pos hc]
    have := (handle_option_state st).1
    simp [this, h]
  · rw [if_neg hc]
    cases hargs : st.args with
    | nil => simpa using h
    | cons b rest =>
      dsimp only
      rw [handle_arg_done { st with args := rest } b h]
      simpa using h

/-- Any number of pulls preserves an already-set `opts_done` flag. -/
theorem stepsFuel_opts_done :
    ∀ (n : Nat) (st : GetOptState), st.opts_done = true →
      ((stepsFuel n st).2).opts_done = true := by
  intro n
  induction n with
  | zero => intro st h; simpa [stepsFuel] using h
  | succ m ih =>
    intro st h
    cases hn : nextGetOpt st with
    | mk o st1 =>
      have h1 : st1.opts_done = true := by
        have := nextGetOpt_opts_done h
        rwa [hn] at this
      cases o with
      | none => simpa [stepsFuel, hn] using h1
      | some it =>
        simp only [stepsFuel, hn]
        exact ih st1 h1

/-- Once `opts_done` holds and no cluster is active, the rest of the run
is just the remaining tokens wrapped as arguments. -/
theorem stepsFuel_done (l : List String) :
    ∀ (st : GetOptState) (fuel : Nat), st.args = l → st.opts_done = true →
      ¬ clusterActive st → l.length ≤ fuel →
      (stepsFuel fuel st).1 = l.map (fun a => Except.ok (Arg.Arg a)) := by
  induction l with
  | nil =>
    intro st fuel hargs hd hc hf
    cases fuel with
    | zero => simp [stepsFuel]
    | succ m =>
      have hn : nextGetOpt st = (none, st) := by
        unfold nextGetOpt
        rw [if_neg (by unfold clusterActive at hc; exact hc), hargs]
      simp [stepsFuel, hn]
  | cons b rest ih =>
    intro st fuel hargs hd hc hf
    cases fuel with
    | zero => simp at hf
    | succ m =>
      have hn : nextGetOpt st =
          (some (.ok (.Arg b)), { st with args := rest }) := by
        unfold nextGetOpt
        rw [if_neg (by unfold clusterActive at hc; exact hc), hargs]
        exact handle_arg_done _ _ hd
      simp only [stepsFuel, hn, List.map_cons]
      rw [ih { st with args := rest } m rfl hd
        (by unfold clusterActive at hc ⊢; exact hc) (by simpa using hf)]

/-- When `handle_arg` yields a plain argument, the resulting state has
`opts_done` set and (given an inactive inherited cluster) no active
cluster. -/
theorem handle_arg_arg_result {st : GetOptState} {a v : String} {st' : GetOptState}
    (hcl : ¬ clusterActive st)
    (h : handle_arg st a = (some (.ok (.Arg v)), st')) :
    st'.opts_done = true ∧ ¬ clusterActive st' := by
  unfold handle_arg at h
  by_cases h1 : st.opts_done
  · rw [if_pos h1] at h
    have hst' : st' = st := by
      have := congrArg Prod.snd h
      simpa using this.symm
    exact ⟨hst' ▸ h1, hst' ▸ hcl⟩
  · by_cases h2 : a.data.head? = some '-'
    · by_cases h3 : a.data.length > 1
      · by_cases h4 : a.data.length = 2 ∧ a.data.getD 1 ' ' = '-'
        · rw [if_neg (by simp [h1]), if_pos h2, if_pos h3, if_pos h4] at h
          split at h
          · rename_i b rest hargs
            rw [handle_arg_done
              { st with opts_done := true, chars := a.data, idx := 0, args := rest } b rfl] at h
            have hst' : st' =
                { st with opts_done := true, chars := a.data, idx := 0, args := rest } := by
              have := congrArg Prod.snd h
              simpa using this.symm
            refine ⟨hst' ▸ rfl, ?_⟩
            rw [hst']
            intro hx
            exact absurd hx.2.1 (by simp)
          · rename_i hargs
            simp at h
        · rw [if_neg (by simp [h1]), if_pos h2, if_pos h3, if_neg h4] at h
          cases hopt : handle_option { st with chars := a.data, idx := 1 } with
          | mk r st1 =>
            rw [hopt] at h
            have hr : r = .ok (.Arg v) := by
              have := congrArg Prod.fst h
              simpa using this
            have := handle_option_ne_arg { st with chars := a.data, idx := 1 } v
            rw [hopt] at this
            exact absurd hr this
      · rw [if_neg (by simp [h1]), if_pos h2, if_neg h3] at h
        simp at h
    · rw [if_neg (by simp [h1]), if_neg h2] at h
      have hst' : st' = { st with opts_done := true } := by
        have := congrArg Prod.snd h
        simpa using this.symm
      refine ⟨hst' ▸ rfl, ?_⟩
      rw [hst']
      intro hx
      exact hcl ⟨hx.1, hx.2.1, hx.2.2⟩

/-- The compiler loop succeeds exactly when every character is
alphanumeric or a colon and, unless a letter is already pending in
`last`, every colon is preceded by some alphanumeric character. -/
theorem parse_go_ne_none (cs : List Char) :
    ∀ (last : Option Char) (acc : List OptSpec),
      parse_optstring_go cs last acc ≠ none ↔
        ((∀ c ∈ cs, c.isAlphanum = true ∨ c = ':') ∧
         (last = none →
           ∀ pre post, cs = pre ++ ':' :: post → ∃ a ∈ pre, a.isAlphanum = true)) := by
  induction cs with
  | nil =>
    intro last acc
    constructor
    · intro _
      refine ⟨by simp, ?_⟩
      intro _ pre post hp
      exact absurd hp (by simp)
    · intro _
      cases last <;> simp [parse_optstring_go]
  | cons c rest ih =>
    intro last acc
    by_cases hc : c = ':'
    · subst hc
      cases last with
      | none =>
        constructor
        · intro h
          exact absurd (by simp [parse_optstring_go]) h
        · rintro ⟨-, hguard⟩
          have hex := hguard rfl [] rest rfl
          simp at hex
      | some c0 =>
        have hstep : parse_optstring_go (':' :: rest) (some c0) acc =
            parse_optstring_go rest (some c0) (acc ++ [OptSpec.mk c0 true]) := by
          simp [parse_optstring_go]
        rw [hstep, ih (some c0) (acc ++ [OptSpec.mk c0 true])]
        constructor
        · rintro ⟨hchars, -⟩
          refine ⟨?_, by intro hn; simp at hn⟩
          intro d hd
          rcases List.mem_cons.mp hd with h | h
          · exact Or.inr h
          · exact hchars d h
        · rintro ⟨hchars, -⟩
          exact ⟨fun d hd => hchars d (List.mem_cons_of_mem _ hd),
            by intro hn; simp at hn⟩
    · by_cases ha : c.isAlphanum
      · cases last with
        | none =>
          have hstep : parse_optstring_go (c :: rest) none acc =
              parse_optstring_go rest (some c) acc := by
            simp [parse_optstring_go, hc, ha]
          rw [hstep, ih (some c) acc]
          constructor
          · rintro ⟨hchars, -⟩
            refine ⟨?_, ?_⟩
            · intro d hd
              rcases List.mem_cons.mp hd with h | h
              · exact Or.inl (h ▸ ha)
              · exact hchars d h
            · rintro - pre post hp
              cases pre with
              | nil =>
                simp at hp
                exact absurd hp.1 hc
              | cons p pre' =>
                obtain ⟨hcp, -⟩ := List.cons_eq_cons.mp hp
                exact ⟨p, List.mem_cons_self p pre', hcp ▸ ha⟩
          · rintro ⟨hchars, -⟩
            exact ⟨fun d hd => hchars d (List.mem_cons_of_mem _ hd),
              by intro hn; simp at hn⟩
        | some c0 =>
          have hstep : parse_optstring_go (c :: rest) (some c0) acc =
              parse_optstring_go rest (some c) (acc ++ [OptSpec.mk c0 false]) := by
            simp [parse_optstring_go, hc, ha]
          rw [hstep, ih (some c) (acc ++ [OptSpec.mk c0 false])]
          constructor
          · rintro ⟨hchars, -⟩
            refine ⟨?_, by intro hn; simp at hn⟩
            intro d hd
            rcases List.mem_cons.mp hd with h | h
            · exact Or.inl (h ▸ ha)
            · exact hchars d h
          · rintro ⟨hchars, -⟩
            exact ⟨fun d hd => hchars d (List.mem_cons_of_mem _ hd),
              by intro hn; simp at hn⟩
      · have hstep : parse_optstring_go (c :: rest) last acc = none := by
          cases last <;> simp [parse_optstring_go, hc, ha]
        rw [hstep]
        constructor
        · intro h
          exact absurd rfl h
        · rintro ⟨hchars, -⟩
          rcases hchars c (List.mem_cons_self c rest) with h | h
          · exact absurd h ha
          · exact absurd h hc

/-! The claims. -/

/-- Claim C1, counterexample: with specification `"a:b"` and tokens
`["-ab", "ant", "bat"]`, the pull after `OptWithArg 'a' "ant"` yields
`Opt 'b'` from the leftover cluster character — the cluster is not
discarded, contradicting the claim that `'b'` produces no further item
(the source's own test asserts the `Opt 'b'` item). -/
theorem cluster_not_discarded_counterexample :
    runGetOpt "a:b" ["-ab", "ant", "bat"] =
      [.ok (.OptWithArg 'a' "ant"), .ok (.Opt 'b'), .ok (.Arg "bat")] ∧
    runGetOpt "a:b" ["-ab", "ant", "bat"] ≠
      [.ok (.OptWithArg 'a' "ant"), .ok (.Arg "bat")] := by
  constructor <;>
    simp [runGetOpt, mkGetOpt, parse_optstring, parse_optstring_go, totalSize,
      stepsFuel, nextGetOpt, handle_arg, handle_option, find_opt_spec]

/-- Claim C1, amended: when a cluster character's letter is known and
takes a value, the value is the entire next token pulled fresh from the
source, and the cluster is not ended — the index advances by one and the
remaining characters of the current token stay in place for subsequent
pulls. -/
theorem value_whole_next_token_cluster_resumes
    (st : GetOptState) (c : Char) (v : String) (rest : List String)
    (hcl : clusterActive st)
    (hc : st.chars.getD st.idx ' ' = c)
    (hs : find_opt_spec st.opt_specs c = some (OptSpec.mk c true))
    (ha : st.args = v :: rest) :
    nextGetOpt st =
      (some (.ok (.OptWithArg c v)), { st with idx := st.idx + 1, args := rest }) := by
  have hcl' : ¬ st.chars.isEmpty ∧ st.idx > 0 ∧ st.idx < st.chars.length := hcl
  unfold nextGetOpt
  rw [if_pos hcl']
  unfold handle_option
  rw [hc, hs]
  simp [ha]

/-- Witness for the amended C1 theorem at the state reached after
`OptWithArg 'a' "ant"` in the `"a:b"` / `["-ab", "ant", "bat"]` scenario. -/
theorem value_whole_next_token_cluster_resumes_witness :
    nextGetOpt (GetOptState.mk false [OptSpec.mk 'a' true, OptSpec.mk 'b' false]
        ["ant", "bat"] ['-', 'a', 'b'] 1) =
      (some (.ok (.OptWithArg 'a' "ant")),
        GetOptState.mk false [OptSpec.mk 'a' true, OptSpec.mk 'b' false]
          ["bat"] ['-', 'a', 'b'] 2) :=
  value_whole_next_token_cluster_resumes _ 'a' "ant" ["bat"]
    (by decide) (by decide) (by decide) rfl

/-- Claim C2, counterexample: a `"--"` token pulled after option scanning
has already ended is yielded as `Positional("--")`, so the exact string
`"--"` can appear as a positional value. -/
theorem double_dash_positional_counterexample :
    runGetOpt "a" ["--", "--"] = [.ok (.Arg "--")] ∧
    Except.ok (Arg.Arg "--") ∈ runGetOpt "a" ["--", "--"] := by
  constructor <;>
    simp [runGetOpt, mkGetOpt, parse_optstring, parse_optstring_go, totalSize,
      stepsFuel, nextGetOpt, handle_arg, handle_option, find_opt_spec]

/-- Claim C2, amended: while option scanning is active a `"--"` token is
discarded without producing an item and the following token (if any) is
the next yielded `Positional`; once scanning has ended, a `"--"` token is
yielded as `Positional("--")` like any other token. -/
theorem double_dash_discarded_only_while_scanning :
    (∀ (specs : List OptSpec) (args : List String) (chars : List Char) (idx : Nat),
        handle_arg (GetOptState.mk false specs args chars idx) "--" =
          match args with
          | [] => (none, GetOptState.mk true specs [] ['-', '-'] 0)
          | a :: rest =>
            (some (.ok (.Arg a)), GetOptState.mk true specs rest ['-', '-'] 0)) ∧
    (∀ st : GetOptState, st.opts_done = true →
        handle_arg st "--" = (some (.ok (.Arg "--")), st)) ∧
    runGetOpt "a" ["--", "-a"] = [.ok (.Arg "-a")] := by
  refine ⟨?_, ?_, ?_⟩
  · intro specs args chars idx
    cases args with
    | nil =>
      unfold handle_arg
      simp
    | cons b rest =>
      unfold handle_arg
      simp
      rw [handle_arg_done (GetOptState.mk true specs rest ['-', '-'] 0) b rfl]
  · intro st h
    exact handle_arg_done st "--" h
  · simp [runGetOpt, mkGetOpt, parse_optstring, parse_optstring_go, totalSize,
      stepsFuel, nextGetOpt, handle_arg, handle_option, find_opt_spec]

/-- Claim C3: construction aborts exactly for malformed specification
strings — some character is neither alphanumeric nor a colon, or some
colon has no alphanumeric character anywhere before it. -/
theorem construction_aborts_iff_spec_malformed (s : String) :
    parse_optstring s = none ↔
      ¬ ((∀ c ∈ s.data, c.isAlphanum = true ∨ c = ':') ∧
         (∀ pre post, s.data = pre ++ ':' :: post → ∃ a ∈ pre, a.isAlphanum = true)) := by
  unfold parse_optstring
  have h2 : parse_optstring_go s.data none [] ≠ none ↔
      ((∀ c ∈ s.data, c.isAlphanum = true ∨ c = ':') ∧
       (∀ pre post, s.data = pre ++ ':' :: post → ∃ a ∈ pre, a.isAlphanum = true)) := by
    rw [parse_go_ne_none s.data none []]
    constructor
    · rintro ⟨h1, hg⟩
      exact ⟨h1, hg rfl⟩
    · rintro ⟨h1, hg⟩
      exact ⟨h1, fun _ => hg⟩
  constructor
  · intro hn hr
    exact (h2.mpr hr) hn
  · intro hnr
    by_contra hne
    exact hnr (h2.mp hne)

/-- Claim C4: whenever a pull yields a `Positional`, the resulting state
has `opts_done` set and no active cluster; from such a state the rest of
the run wraps every remaining token as `Positional` with its exact value;
and the concrete scenario `"a"`, `["x", "-a"]`. -/
theorem positional_latches_and_wraps_rest :
    (∀ (st : GetOptState) (v : String) (st' : GetOptState),
        nextGetOpt st = (some (.ok (.Arg v)), st') →
        st'.opts_done = true ∧ ¬ clusterActive st') ∧
    (∀ (st : GetOptState) (fuel : Nat), st.opts_done = true → ¬ clusterActive st →
        st.args.length ≤ fuel →
        (stepsFuel fuel st).1 = st.args.map (fun a => Except.ok (Arg.Arg a))) ∧
    runGetOpt "a" ["x", "-a"] = [.ok (.Arg "x"), .ok (.Arg "-a")] := by
  refine ⟨?_, ?_, ?_⟩
  · intro st v st' h
    unfold nextGetOpt at h
    by_cases hc : ¬ st.chars.isEmpty ∧ st.idx > 0 ∧ st.idx < st.chars.length
    · rw [if_pos hc] at h
      have h1 : (handle_option st).1 = .ok (.Arg v) := by
        have := congrArg Prod.fst h
        simpa using this
      exact absurd h1 (handle_option_ne_arg st v)
    · rw [if_neg hc] at h
      cases hargs : st.args with
      | nil =>
        rw [hargs] at h
        simp at h
      | cons b rest =>
        rw [hargs] at h
        exact @handle_arg_arg_result { st with args := rest } b v st' (fun hx => hc hx) h
  · intro st fuel hd hc hf
    exact stepsFuel_done st.args st fuel rfl hd hc hf
  · simp [runGetOpt, mkGetOpt, parse_optstring, parse_optstring_go, totalSize,
      stepsFuel, nextGetOpt, handle_arg, handle_option, find_opt_spec]

/-- Claim C5: an error is yielded as an ordinary value in the sequence
and iteration simply continues from the successor state; concretely,
`"a:b"` over `["-ab"]` yields `MissingValue('a')` then `Flag('b')` and
then the sequence ends. -/
theorem errors_yielded_in_sequence :
    (∀ (st : GetOptState) (e : GetOptErr) (st' : GetOptState) (n : Nat),
        nextGetOpt st = (some (.error e), st') →
        (stepsFuel (n + 1) st).1 = .error e :: (stepsFuel n st').1) ∧
    runGetOpt "a:b" ["-ab"] = [.error (.MissingArg 'a'), .ok (.Opt 'b')] := by
  constructor
  · intro st e st' n h
    simp [stepsFuel, h]
  · simp [runGetOpt, mkGetOpt, parse_optstring, parse_optstring_go, totalSize,
      stepsFuel, nextGetOpt, handle_arg, handle_option, find_opt_spec]

/-- Claim C6: `opts_done` is monotone — once it is set, it remains set
after any number of further pulls. -/
theorem opts_done_monotone (n : Nat) (st : GetOptState)
    (h : st.opts_done = true) : ((stepsFuel n st).2).opts_done = true :=
  stepsFuel_opts_done n st h

/-- Witness for the C6 theorem at a concrete state. -/
theorem opts_done_monotone_witness :
    ((stepsFuel 3 (GetOptState.mk true [] ["x", "y"] [] 0)).2).opts_done = true :=
  opts_done_monotone 3 (GetOptState.mk true [] ["x", "y"] [] 0) rfl

/-- Claim C7: the end sentinel appears only when the source is exhausted
and no cluster is in progress (and is then stable), and every run reaches
the sentinel after at most `totalSize` pulls — the item sequence is
finite. -/
theorem run_terminates_and_sentinel_conditions :
    (∀ (st st' : GetOptState), nextGetOpt st = (none, st') →
        st'.args = [] ∧ ¬ clusterActive st' ∧ nextGetOpt st' = (none, st')) ∧
    (∀ st : GetOptState,
        nextGetOpt ((stepsFuel (totalSize st) st).2) =
          (none, (stepsFuel (totalSize st) st).2)) :=
  ⟨fun _ _ h => nextGetOpt_none h,
   fun st => stepsFuel_exhausts (totalSize st) st le_rfl⟩

/-- Claim C8: the parser is a pure function of the specification string
and the token sequence, so two runs over equal inputs yield identical
item sequences. -/
theorem parser_deterministic (s1 s2 : String) (a1 a2 : List String)
    (hs : s1 = s2) (ha : a1 = a2) : runGetOpt s1 a1 = runGetOpt s2 a2 := by
  subst hs
  subst ha
  rfl

/-- Witness for the C8 theorem at concrete inputs. -/
theorem parser_deterministic_witness :
    runGetOpt "ab:" ["-ab", "val"] = runGetOpt "ab:" ["-ab", "val"] :=
  parser_deterministic "ab:" "ab:" ["-ab", "val"] ["-ab", "val"] rfl rfl

/-- Claim C9: lookup is a first-match linear scan (it agrees with
`List.find?`), the compiled table can hold several descriptors per letter
(including the spurious `takes_value = false` duplicate after a
colon-marked letter followed by further characters), and resolution uses
the earliest occurrence: `"a:a"` treats `'a'` as taking a value while
`"aa:"` treats it as a plain flag. -/
theorem first_matching_descriptor_wins :
    (∀ (l : List OptSpec) (c : Char),
        find_opt_spec l c = l.find? (fun s => s.opt == c)) ∧
    parse_optstring "a:b" = some [⟨'a', true⟩, ⟨'a', false⟩, ⟨'b', false⟩] ∧
    parse_optstring "a:a" = some [⟨'a', true⟩, ⟨'a', false⟩, ⟨'a', false⟩] ∧
    parse_optstring "aa:" = some [⟨'a', false⟩, ⟨'a', true⟩, ⟨'a', false⟩] ∧
    find_opt_spec [⟨'a', true⟩, ⟨'a', false⟩, ⟨'a', false⟩] 'a' = some ⟨'a', true⟩ ∧
    find_opt_spec [⟨'a', false⟩, ⟨'a', true⟩, ⟨'a', false⟩] 'a' = some ⟨'a', false⟩ ∧
    runGetOpt "a:a" ["-a", "v"] = [.ok (.OptWithArg 'a' "v")] ∧
    runGetOpt "aa:" ["-a", "v"] = [.ok (.Opt 'a'), .ok (.Arg "v")] := by
  refine ⟨?_, by decide, by decide, by decide, by decide, by decide, ?_, ?_⟩
  · intro l c
    induction l with
    | nil => simp [find_opt_spec]
    | cons s rest ih =>
      by_cases h : s.opt = c
      · rw [List.find?_cons_of_pos _ (by simp [h])]
        simp [find_opt_spec, h]
      · rw [List.find?_cons_of_neg _ (by simp [h])]
        simp [find_opt_spec, h, ih]
  · simp [runGetOpt, mkGetOpt, parse_optstring, parse_optstring_go, totalSize,
      stepsFuel, nextGetOpt, handle_arg, handle_option, find_opt_spec]
  · simp [runGetOpt, mkGetOpt, parse_optstring, parse_optstring_go, totalSize,
      stepsFuel, nextGetOpt, handle_arg, handle_option, find_opt_spec]

/-- Claim C10: an empty-string token met while scanning is active is a
bare positional — it yields `Positional("")` and sets `opts_done` — and
subsequent tokens (hyphen-led or not) are positionals. -/
theorem empty_token_positional_ends_scanning :
    (∀ st : GetOptState, st.opts_done = false →
        handle_arg st "" =
          (some (.ok (.Arg "")), { st with opts_done := true })) ∧
    runGetOpt "a" ["", "-a"] = [.ok (.Arg ""), .ok (.Arg "-a")] := by
  constructor
  · intro st h
    unfold handle_arg
    simp [h]
  · simp [runGetOpt, mkGetOpt, parse_optstring, parse_optstring_go, totalSize,
      stepsFuel, nextGetOpt, handle_arg, handle_option, find_opt_spec]

end GetoptLib
